import Mathlib

/-!
# Verification of the RAG retrieval core of `video_analyzer`

Shallow embedding of `src/services/rag_system.py`: chunk building
(`_create_chunks`), oversized-chunk splitting (`_split_large_chunk`),
embedding generation and batch storage (`_generate_embeddings`,
`_store_chunks`), query-time retrieval and reranking
(`_retrieve_relevant_chunks`, `_rerank_chunks`), source processing,
confidence scoring (`_calculate_confidence`), and the follow-up question
fallback extractor (`_extract_questions_from_text`).

Python strings are modelled as `List Char`, floats as rationals.  The
external collaborators (embedding provider, ChromaDB collection query, LLM
answer synthesis) are modelled as explicit parameters, matching the spec's
treatment of them as external interfaces.
-/

namespace VideoAnalyzer

/-- Python strings, modelled as their character sequences. -/
abbrev Str := List Char

/-- Decimal rendering of a natural number, for f-string ids like
`f"transcript_{chunk_id}"`. -/
def natStr (n : Nat) : Str := (Nat.repr n).data

/-- The `[.!?]` sentence-delimiter class of `re.split(r'[.!?]+', ...)`. -/
def isDelim (c : Char) : Bool := c = '.' || c = '!' || c = '?'

/-- Whitespace, for Python `str.strip()` / `str.split()` / `\s`. -/
def isWs (c : Char) : Bool := c.isWhitespace

/-- `\w` word characters of `re.findall(r'\b\w+\b', ...)` (ASCII model). -/
def isWordChar (c : Char) : Bool := c.isAlphanum || c = '_'

/-- Python `str.strip()`: drop leading and trailing whitespace. -/
def strip (l : Str) : Str :=
  ((l.dropWhile isWs).reverse.dropWhile isWs).reverse

/-- `re.split(r'[.!?]+', s)`: split on maximal nonempty runs of sentence
delimiters, discarding the delimiters.  A leading or trailing delimiter run
produces an empty part, as in Python; a delimiter directly followed by
another delimiter belongs to the same run and opens no new part. -/
def splitDelimRuns : Str → List Str
  | [] => [[]]
  | c :: cs =>
    if isDelim c then
      match cs with
      | d :: _ =>
        if isDelim d then splitDelimRuns cs else [] :: splitDelimRuns cs
      | [] => [] :: splitDelimRuns cs
    else
      match splitDelimRuns cs with
      | [] => [[c]]
      | p :: ps => (c :: p) :: ps

/-- Maximal runs of characters satisfying `p` (used for `re.findall` word
tokens and for Python `str.split()` whitespace splitting). -/
def runsOf (p : Char → Bool) : Str → List Str
  | [] => []
  | c :: cs =>
    if p c then
      match cs with
      | d :: _ =>
        if p d then
          match runsOf p cs with
          | [] => [[c]]
          | r :: rs => (c :: r) :: rs
        else [c] :: runsOf p cs
      | [] => [c] :: runsOf p cs
    else runsOf p cs

/-- `len(answer.split())`: number of maximal non-whitespace runs. -/
def pyWordCount (s : Str) : Nat := (runsOf (fun c => !(isWs c)) s).length

/-- `re.findall(r'\b\w+\b', s.lower())`: case-insensitive word tokens. -/
def wordTokens (s : Str) : List Str := runsOf isWordChar (s.map Char.toLower)

/-! ## Data model: build-side inputs and chunks -/

/-- One transcript segment, with `dict.get` defaults already applied
(`text` defaults to `''`, `start`/`end` to `'00:00'`, `speaker` to `''`). -/
structure Segment where
  text : Str := []
  start : Str := []
  stop : Str := []
  speaker : Str := []
deriving DecidableEq, Repr

/-- A transcript: `segments` is `none` when the `'segments'` key is absent. -/
structure Transcript where
  segments : Option (List Segment) := none
deriving DecidableEq, Repr

/-- One notes section (`title`, `timestamp`, `content`, `key_points`,
`quotes`, with `dict.get` defaults applied). -/
structure NotesSection where
  title : Str := []
  timestamp : Str := []
  content : Str := []
  key_points : List Str := []
  quotes : List Str := []
deriving DecidableEq, Repr

/-- Notes: `sections` is `none` when the `'sections'` key is absent. -/
structure Notes where
  sections : Option (List NotesSection) := none
deriving DecidableEq, Repr

/-- A chunk built by `_create_chunks` (flat union of the dict keys used for
the three chunk families; `mtype` is `metadata['type']`). -/
structure BuildChunk where
  id : Str
  content : Str
  source : String
  timestamp : Str := []
  speaker : Str := []
  section_title : Str := []
  start_time : Str := []
  end_time : Str := []
  mtype : String
deriving DecidableEq, Repr

/-- The chunk made from one transcript segment (id `transcript_{n}`). -/
def segmentChunk (n : Nat) (seg : Segment) : BuildChunk :=
  { id := "transcript_".data ++ natStr n
    content := seg.text
    source := "transcript"
    timestamp := seg.start
    speaker := seg.speaker
    start_time := seg.start
    end_time := seg.stop
    mtype := "transcript_segment" }

/-- Transcript-segment chunks, threading the `chunk_id` counter. -/
def segChunks : List Segment → Nat → List BuildChunk × Nat
  | [], n => ([], n)
  | s :: ss, n =>
    let rest := segChunks ss (n + 1)
    (segmentChunk n s :: rest.1, rest.2)

/-- The chunk made from one notes section's main `content`. -/
def notesChunk (n : Nat) (sec : NotesSection) : BuildChunk :=
  { id := "notes_".data ++ natStr n
    content := sec.content
    source := "notes"
    timestamp := sec.timestamp
    section_title := sec.title
    mtype := "notes_section" }

/-- One chunk per key point (id `keypoint_{n}`). -/
def kpChunks (sec : NotesSection) : List Str → Nat → List BuildChunk × Nat
  | [], n => ([], n)
  | p :: ps, n =>
    let rest := kpChunks sec ps (n + 1)
    ({ id := "keypoint_".data ++ natStr n
       content := p
       source := "key_points"
       timestamp := sec.timestamp
       section_title := sec.title
       mtype := "key_point" } :: rest.1, rest.2)

/-- One chunk per quote (id `quote_{n}`). -/
def qtChunks (sec : NotesSection) : List Str → Nat → List BuildChunk × Nat
  | [], n => ([], n)
  | q :: qs, n =>
    let rest := qtChunks sec qs (n + 1)
    ({ id := "quote_".data ++ natStr n
       content := q
       source := "quotes"
       timestamp := sec.timestamp
       section_title := sec.title
       mtype := "quote" } :: rest.1, rest.2)

/-- Candidate chunks of one section: guarded main content
(`if section.get('content')`), then key points (`if section.get('key_points')`),
then quotes (`if section.get('quotes')`). -/
def sectionChunks (sec : NotesSection) (n : Nat) : List BuildChunk × Nat :=
  let c1 : List BuildChunk × Nat :=
    if sec.content ≠ [] then ([notesChunk n sec], n + 1) else ([], n)
  let c2 : List BuildChunk × Nat :=
    if sec.key_points ≠ [] then kpChunks sec sec.key_points c1.2 else ([], c1.2)
  let c3 : List BuildChunk × Nat :=
    if sec.quotes ≠ [] then qtChunks sec sec.quotes c2.2 else ([], c2.2)
  (c1.1 ++ c2.1 ++ c3.1, c3.2)

/-- Candidate chunks of all sections, in order. -/
def sectionsChunks : List NotesSection → Nat → List BuildChunk × Nat
  | [], n => ([], n)
  | sec :: secs, n =>
    let first := sectionChunks sec n
    let rest := sectionsChunks secs first.2
    (first.1 ++ rest.1, rest.2)

/-- The candidate chunk list of `_create_chunks` before large-chunk
splitting (transcript segments, then notes sections). -/
def buildCandidates (transcript : Transcript) (notes : Notes) :
    List BuildChunk :=
  let t : List BuildChunk × Nat :=
    match transcript.segments with
    | some segs => segChunks segs 0
    | none => ([], 0)
  let nts : List BuildChunk × Nat :=
    match notes.sections with
    | some secs => sectionsChunks secs t.2
    | none => ([], t.2)
  t.1 ++ nts.1

/-! ## `_split_large_chunk` -/

/-- The loop state of `_split_large_chunk`: `current_chunk`, `chunk_count`,
and the accumulated output `chunks`. -/
structure SplitState where
  cur : Str
  cnt : Nat
  acc : List BuildChunk
deriving DecidableEq, Repr

/-- `chunk.copy()` with `id = f"{chunk['id']}_{chunk_count}"` and
`content = current_chunk.strip()`. -/
def emitChunk (parent : BuildChunk) (st : SplitState) : BuildChunk :=
  { parent with
      id := parent.id ++ '_' :: natStr st.cnt
      content := strip st.cur }

/-- One iteration of the sentence loop of `_split_large_chunk`. -/
def splitStep (parent : BuildChunk) (maxSize : Nat) (st : SplitState)
    (raw : Str) : SplitState :=
  let s := strip raw
  if s = [] then st
  else if st.cur.length + s.length > maxSize ∧ st.cur ≠ [] then
    { cur := s, cnt := st.cnt + 1, acc := st.acc ++ [emitChunk parent st] }
  else
    { st with cur := if st.cur = [] then s else st.cur ++ '.' :: ' ' :: s }

/-- `_split_large_chunk(chunk, max_size)`. -/
def split_large_chunk (parent : BuildChunk) (maxSize : Nat) :
    List BuildChunk :=
  let st := (splitDelimRuns parent.content).foldl (splitStep parent maxSize)
    ⟨[], 0, []⟩
  if st.cur ≠ [] then st.acc ++ [emitChunk parent st] else st.acc

/-- The final loop of `_create_chunks`: split chunks whose content exceeds
`chunk_size`, keep the rest. -/
def chunkSizeStep (size : Nat) (acc : List BuildChunk) (c : BuildChunk) :
    List BuildChunk :=
  if c.content.length > size then acc ++ split_large_chunk c size
  else acc ++ [c]

/-- `_create_chunks(transcript, notes, chunk_size)`. -/
def create_chunks (transcript : Transcript) (notes : Notes)
    (chunk_size : Nat) : List BuildChunk :=
  (buildCandidates transcript notes).foldl (chunkSizeStep chunk_size) []

/-! ## `_generate_embeddings`, `_store_chunks`, `setup_vector_store` -/

/-- The embedding provider: either a vector per text, or a raised
exception (modelled as `Except.error`). -/
abbrev Provider := List Str → Except String (List (List ℚ))

/-- `_generate_embeddings`: on provider failure, substitute 384-dimensional
zero vectors (one per text) instead of propagating the exception. -/
def generate_embeddings (provider : Provider) (texts : List Str) :
    List (List ℚ) :=
  match provider texts with
  | .ok embs => embs
  | .error _ => texts.map (fun _ => List.replicate 384 (0 : ℚ))

/-- One row stored in the ChromaDB collection by `collection.add`. -/
structure StoredEntry where
  id : Str
  document : Str
  mtype : String
  embedding : List ℚ
deriving DecidableEq, Repr

/-- `_store_chunks`: process chunks in batches of 100; each batch is
embedded via `_generate_embeddings` and appended to the collection. -/
def store_chunks (provider : Provider) :
    List BuildChunk → List StoredEntry → List StoredEntry
  | [], col => col
  | c :: cs, col =>
    let batch := (c :: cs).take 100
    let embs := generate_embeddings provider (batch.map (·.content))
    store_chunks provider ((c :: cs).drop 100)
      (col ++ batch.zipWith
        (fun ch e => StoredEntry.mk ch.id ch.content ch.mtype e) embs)
termination_by chunks => chunks.length
decreasing_by
  simp only [List.length_drop, List.length_cons]
  omega

/-- The dict returned by `setup_vector_store`. -/
structure SetupResult where
  collection_name : String
  total_chunks : Nat
  chunk_size : Nat
deriving DecidableEq, Repr

/-- `setup_vector_store`: build chunks, store them into a fresh collection,
return the stats dict.  The collection name (timestamp-derived in the
source) is a parameter.  Returns the stored collection and the result. -/
def setup_vector_store (provider : Provider) (name : String)
    (transcript : Transcript) (notes : Notes) (chunk_size : Nat) :
    List StoredEntry × SetupResult :=
  let chunks := create_chunks transcript notes chunk_size
  (store_chunks provider chunks [],
   { collection_name := name
     total_chunks := chunks.length
     chunk_size := chunk_size })

/-! ## Retrieval and reranking -/

/-- One row of a ChromaDB `collection.query` result (document, stored
metadata, distance). -/
structure QueryRow where
  document : Str
  mtype : String
  section_title : Option Str := none
  timestamp : Option Str := none
  distance : ℚ
deriving DecidableEq, Repr

/-- A retrieved chunk as assembled in `_retrieve_relevant_chunks`
(`relevance_score = 1 - distance` at construction time). -/
structure RetrievedChunk where
  content : Str
  mtype : String
  section_title : Option Str := none
  timestamp : Option Str := none
  distance : ℚ := 0
  relevance_score : ℚ := 0
deriving DecidableEq, Repr

/-- `keyword_overlap` in `_rerank_chunks`: distinct case-insensitive query
tokens intersected with distinct chunk tokens, over distinct query tokens;
`0` if the query has no tokens. -/
def keywordOverlap (question content : Str) : ℚ :=
  let qk := (wordTokens question).dedup
  let ck := (wordTokens content).dedup
  if qk = [] then 0
  else ((qk.filter (fun t => decide (t ∈ ck))).length : ℚ) / (qk.length : ℚ)

/-- `source_boost` in `_rerank_chunks`. -/
def sourceBoost (c : RetrievedChunk) : ℚ :=
  if c.mtype = "key_point" then 6 / 5
  else if c.mtype = "quote" then 11 / 10
  else 1

/-- The in-place score update of `_rerank_chunks`:
`(relevance_score * 0.7 + keyword_overlap * 0.3) * source_boost`. -/
def rescore (question : Str) (c : RetrievedChunk) : RetrievedChunk :=
  { c with relevance_score :=
      (c.relevance_score * (7 / 10) +
        keywordOverlap question c.content * (3 / 10)) * sourceBoost c }

/-- The descending-score order used by
`sorted(chunks, key=lambda x: x['relevance_score'], reverse=True)`. -/
def rankLE (a b : RetrievedChunk) : Prop :=
  b.relevance_score ≤ a.relevance_score

instance : DecidableRel rankLE :=
  fun a b =>
    inferInstanceAs (Decidable (b.relevance_score ≤ a.relevance_score))

instance : IsTotal RetrievedChunk rankLE :=
  ⟨fun a b => le_total b.relevance_score a.relevance_score⟩

instance : IsTrans RetrievedChunk rankLE :=
  ⟨fun _ _ _ hab hbc => le_trans hbc hab⟩

/-- `_rerank_chunks(question, chunks)`: update every score, then sort
descending by score.  Python's `sorted` is stable; insertion sort with
`rankLE` places each element after all strictly greater and before all
equal-or-smaller ones, which is the same stable descending order. -/
def rerank_chunks (question : Str) (chunks : List RetrievedChunk) :
    List RetrievedChunk :=
  List.insertionSort rankLE (chunks.map (rescore question))

/-- The structured conversion of a query row in
`_retrieve_relevant_chunks`. -/
def rowToChunk (r : QueryRow) : RetrievedChunk :=
  { content := r.document
    mtype := r.mtype
    section_title := r.section_title
    timestamp := r.timestamp
    distance := r.distance
    relevance_score := 1 - r.distance }

/-- `_retrieve_relevant_chunks`: the whole body runs inside
`try/except Exception: return []`, so any failure of the collection query
(including a missing collection) yields the empty list.  On success, rows
are converted, reranked, and truncated to `max_results`. -/
def retrieve_relevant_chunks (question : Str) (maxResults : Nat)
    (outcome : Except String (List QueryRow)) : List RetrievedChunk :=
  match outcome with
  | .error _ => []
  | .ok rows =>
    (rerank_chunks question (rows.map rowToChunk)).take maxResults

/-! ## Sources, confidence, answer assembly -/

/-- One entry of `_process_sources`. -/
structure SourceInfo where
  content : Str
  relevance_score : ℚ
  section_title : Str
  timestamp : Str
  source_type : String
deriving DecidableEq, Repr

/-- `_process_sources`: per chunk, copy content and score and fill
metadata defaults (`'Unknown Section'`, `'00:00'`). -/
def process_sources (chunks : List RetrievedChunk) : List SourceInfo :=
  chunks.map fun c =>
    { content := c.content
      relevance_score := c.relevance_score
      section_title := c.section_title.getD "Unknown Section".data
      timestamp := c.timestamp.getD "00:00".data
      source_type := c.mtype }

/-- `_calculate_confidence(chunks, answer)`: `0.0` on an empty chunk list,
otherwise `min(avg*0.6 + lengthFactor*0.2 + diversity*0.2, 1.0)`.  Note
the absence of a lower clamp. -/
def calculate_confidence (chunks : List RetrievedChunk) (answer : Str) :
    ℚ :=
  if chunks = [] then 0
  else
    let avg : ℚ :=
      (chunks.map RetrievedChunk.relevance_score).sum / (chunks.length : ℚ)
    let lengthFactor : ℚ := min ((pyWordCount answer : ℚ) / 100) 1
    let diversity : ℚ :=
      ((chunks.map RetrievedChunk.mtype).dedup.length : ℚ) / 4
    min (avg * (6 / 10) + lengthFactor * (2 / 10) + diversity * (2 / 10)) 1

/-- The dict returned by `answer_question`. -/
structure QAResult where
  answer : Str
  sources : List SourceInfo
  follow_up_questions : List Str
  confidence : ℚ
deriving DecidableEq, Repr

/-- `answer_question`: retrieval, answer synthesis (external LLM call,
modelled as the `synthesize` parameter, per the spec's external
answer-synthesis interface), source processing, follow-up generation
(external LLM call, `followUps` parameter), and confidence.  It is total:
no branch raises. -/
def answer_question (synthesize : Str → List RetrievedChunk → Str)
    (followUps : Str → Str → List RetrievedChunk → List Str)
    (question : Str) (maxSources : Nat)
    (outcome : Except String (List QueryRow)) : QAResult :=
  let chunks := retrieve_relevant_chunks question maxSources outcome
  let answer := synthesize question chunks
  { answer := answer
    sources := process_sources chunks
    follow_up_questions := followUps question answer chunks
    confidence := calculate_confidence chunks answer }

/-! ## `_extract_questions_from_text` -/

/-- `sentence.split('?')[0] + '?'`. -/
def takeUptoQ (s : Str) : Str := s.takeWhile (fun c => c ≠ '?') ++ ['?']

/-- `re.sub(r'^\d+\.\s*', '', q)`: strip a leading `digits.` numbering. -/
def stripNumbering (s : Str) : Str :=
  if s.takeWhile Char.isDigit ≠ [] then
    match s.dropWhile Char.isDigit with
    | '.' :: rest => rest.dropWhile isWs
    | _ => s
  else s

/-- `re.sub(r'^[\-\*]\s*', '', q)`: strip a leading bullet. -/
def stripBullet (s : Str) : Str :=
  match s with
  | c :: rest => if c = '-' ∨ c = '*' then rest.dropWhile isWs else s
  | [] => s

/-- One iteration of the sentence loop of `_extract_questions_from_text`:
strip, check `sentence.endswith('?') or '?' in sentence`, clean up, keep
questions longer than 10 characters. -/
def extractStep (qs : List Str) (raw : Str) : List Str :=
  let s := strip raw
  if s.getLast? = some '?' ∨ '?' ∈ s then
    let q := stripBullet (stripNumbering (takeUptoQ s))
    if q.length > 10 then qs ++ [q] else qs
  else qs

/-- `_extract_questions_from_text`: split on `[.!?]+`, keep stripped parts
that end with or contain `'?'`, clean them up, keep those longer than 10,
return at most 3. -/
def extract_questions_from_text (text : Str) : List Str :=
  ((splitDelimRuns text).foldl extractStep []).take 3

/-! ## Basic lemmas about `strip` -/

theorem mem_dropWhile_of_mem {p : Char → Bool} {c : Char} :
    ∀ {l : Str}, c ∈ l → p c = false → c ∈ l.dropWhile p := by
  intro l
  induction l with
  | nil => intro h; cases h
  | cons a as ih =>
    intro hc hp
    by_cases ha : p a = true
    · rw [List.dropWhile_cons_of_pos ha]
      rcases List.mem_cons.mp hc with rfl | hmem
      · rw [hp] at ha; cases ha
      · exact ih hmem hp
    · rw [List.dropWhile_cons_of_neg ha]
      exact hc

theorem mem_of_mem_strip {c : Char} {l : Str} (h : c ∈ strip l) : c ∈ l := by
  unfold strip at h
  rw [List.mem_reverse] at h
  have h1 := ((List.dropWhile_sublist isWs).mem h)
  rw [List.mem_reverse] at h1
  exact (List.dropWhile_sublist isWs).mem h1

theorem strip_eq_nil_of_all_ws {l : Str} (h : ∀ c ∈ l, isWs c = true) :
    strip l = [] := by
  unfold strip
  have h1 : l.dropWhile isWs = [] := List.dropWhile_eq_nil_iff.mpr h
  rw [h1]
  rfl

theorem strip_ne_nil_of_mem {c : Char} {l : Str} (hc : c ∈ l)
    (hw : isWs c = false) : strip l ≠ [] := by
  unfold strip
  intro hnil
  rw [List.reverse_eq_nil_iff, List.dropWhile_eq_nil_iff] at hnil
  have h1 : c ∈ (l.dropWhile isWs).reverse :=
    List.mem_reverse.mpr (mem_dropWhile_of_mem hc hw)
  have := hnil c h1
  rw [hw] at this
  cases this

theorem strip_has_nonws {l : Str} (h : strip l ≠ []) :
    ∃ c ∈ strip l, isWs c = false := by
  have hdne : (l.dropWhile isWs).reverse.dropWhile isWs ≠ [] := by
    intro hdn
    exact h (by unfold strip; rw [hdn]; rfl)
  refine ⟨((l.dropWhile isWs).reverse.dropWhile isWs).head hdne, ?_, ?_⟩
  · unfold strip
    exact List.mem_reverse.mpr (List.head_mem hdne)
  · exact List.head_dropWhile_not isWs _ hdne

theorem strip_length_le (l : Str) : (strip l).length ≤ l.length := by
  unfold strip
  rw [List.length_reverse]
  calc ((l.dropWhile isWs).reverse.dropWhile isWs).length
      ≤ (l.dropWhile isWs).reverse.length :=
        (List.dropWhile_sublist isWs).length_le
    _ = (l.dropWhile isWs).length := List.length_reverse _
    _ ≤ l.length := (List.dropWhile_sublist isWs).length_le

/-! ## Lemmas about `splitDelimRuns` -/

theorem splitDelimRuns_cons (a : Char) (cs : Str) :
    splitDelimRuns (a :: cs) =
      if isDelim a then
        match cs with
        | d :: _ => if isDelim d then splitDelimRuns cs
                    else [] :: splitDelimRuns cs
        | [] => [] :: splitDelimRuns cs
      else
        match splitDelimRuns cs with
        | [] => [[a]]
        | p :: ps => (a :: p) :: ps := rfl

theorem splitDelimRuns_ne_nil (l : Str) : splitDelimRuns l ≠ [] := by
  induction l with
  | nil => simp [splitDelimRuns]
  | cons c cs ih =>
    rw [splitDelimRuns_cons]
    by_cases hc : isDelim c = true
    · rcases cs with _ | ⟨d, cs'⟩
      · simp [hc]
      · by_cases hd : isDelim d = true
        · simpa [hc, hd] using ih
        · simp [hc, hd]
    · rcases h : splitDelimRuns cs with _ | ⟨p, ps⟩
      · exact absurd h ih
      · simp [hc, h]

theorem mem_splitDelimRuns {l : Str} :
    ∀ {part : Str}, part ∈ splitDelimRuns l →
      ∀ c ∈ part, c ∈ l ∧ isDelim c = false := by
  induction l with
  | nil =>
    intro part hp c hc
    simp [splitDelimRuns] at hp
    subst hp
    cases hc
  | cons a cs ih =>
    intro part hp c hc
    rw [splitDelimRuns_cons] at hp
    by_cases ha : isDelim a = true
    · rcases cs with _ | ⟨d, cs'⟩
      · simp [ha, splitDelimRuns] at hp
        subst hp
        cases hc
      · rw [if_pos ha] at hp
        by_cases hd : isDelim d = true
        · simp only [hd, if_true] at hp
          have := ih hp c hc
          exact ⟨List.mem_cons_of_mem a this.1, this.2⟩
        · simp [hd] at hp
          rcases hp with rfl | hmem
          · cases hc
          · have := ih hmem c hc
            exact ⟨List.mem_cons_of_mem a this.1, this.2⟩
    · rcases h : splitDelimRuns cs with _ | ⟨p, ps⟩
      · exact absurd h (splitDelimRuns_ne_nil cs)
      · rw [if_neg ha, h] at hp
        rcases List.mem_cons.mp hp with rfl | hmem
        · rcases List.mem_cons.mp hc with rfl | hcp
          · exact ⟨List.mem_cons_self _ _, by simpa using ha⟩
          · have := ih (h ▸ List.mem_cons_self p ps) c hcp
            exact ⟨List.mem_cons_of_mem a this.1, this.2⟩
        · have := ih (h ▸ List.mem_cons_of_mem p hmem) c hc
          exact ⟨List.mem_cons_of_mem a this.1, this.2⟩

theorem flatten_splitDelimRuns (l : Str) :
    (splitDelimRuns l).flatten = l.filter (fun c => !(isDelim c)) := by
  induction l with
  | nil => simp [splitDelimRuns]
  | cons a cs ih =>
    rw [splitDelimRuns_cons]
    by_cases ha : isDelim a = true
    · have hfa : (a :: cs).filter (fun c => !(isDelim c)) =
          cs.filter (fun c => !(isDelim c)) := by
        rw [List.filter_cons]
        simp [ha]
      rw [hfa]
      rcases cs with _ | ⟨d, cs'⟩
      · simp [ha, splitDelimRuns]
      · rw [if_pos ha]
        by_cases hd : isDelim d = true
        · simp only [hd, if_true]
          exact ih
        · simp only [hd, Bool.false_eq_true, if_false, List.flatten_cons,
            List.nil_append]
          exact ih
    · have hfa : (a :: cs).filter (fun c => !(isDelim c)) =
          a :: cs.filter (fun c => !(isDelim c)) := by
        rw [List.filter_cons]
        simp [ha]
      rw [hfa]
      rcases h : splitDelimRuns cs with _ | ⟨p, ps⟩
      · exact absurd h (splitDelimRuns_ne_nil cs)
      · rw [if_neg ha]
        show ((a :: p) :: ps).flatten = _
        rw [h, List.flatten_cons] at ih
        rw [List.flatten_cons]
        simp only [List.cons_append]
        rw [ih]

theorem splitDelimRuns_of_noDelim {l : Str}
    (h : ∀ c ∈ l, isDelim c = false) : splitDelimRuns l = [l] := by
  induction l with
  | nil => simp [splitDelimRuns]
  | cons a as ih =>
    have ha : isDelim a = false := h a (List.mem_cons_self _ _)
    rw [splitDelimRuns_cons, if_neg (by simp [ha]),
      ih (fun c hc => h c (List.mem_cons_of_mem a hc))]

/-! ## C9: the fallback question extractor always returns `[]` -/

theorem extractStep_id (qs : List Str) {raw : Str}
    (h : ∀ c ∈ raw, isDelim c = false) : extractStep qs raw = qs := by
  unfold extractStep
  have h2 : ¬ ('?' ∈ strip raw) := by
    intro hm
    have := h '?' (mem_of_mem_strip hm)
    simp [isDelim] at this
  have h1 : ¬ ((strip raw).getLast? = some '?') := by
    intro hg
    exact h2 (List.mem_of_mem_getLast? hg)
  rw [if_neg (by push_neg; exact ⟨h1, h2⟩)]

/-- **C9**: for every input string, the fallback question extractor
returns the empty list: the text is first split on `.`, `!`, `?`
(discarding the delimiters), so no part can contain `?`, hence the
`endswith('?') or '?' in sentence` filter never fires and the
line-heuristic fallback never recovers any follow-up question. -/
theorem C9_extract_questions_empty (text : Str) :
    extract_questions_from_text text = [] := by
  unfold extract_questions_from_text
  have hfold : ∀ (sents : List Str),
      (∀ raw ∈ sents, ∀ c ∈ raw, isDelim c = false) →
      sents.foldl extractStep [] = [] := by
    intro sents
    induction sents with
    | nil => intro _; rfl
    | cons a as ih =>
      intro h
      rw [List.foldl_cons, extractStep_id [] (h a (List.mem_cons_self _ _))]
      exact ih (fun raw hraw => h raw (List.mem_cons_of_mem a hraw))
  rw [hfold _ (fun raw hraw c hc => (mem_splitDelimRuns hraw c hc).2)]
  rfl

/-! ## C10: oversized chunks made only of whitespace and delimiters -/

theorem splitStep_skip (parent : BuildChunk) (maxSize : Nat)
    (st : SplitState) {raw : Str} (h : strip raw = []) :
    splitStep parent maxSize st raw = st := by
  unfold splitStep
  rw [h]
  rfl

theorem splitStep_flush (parent : BuildChunk) (maxSize : Nat)
    (st : SplitState) (raw : Str) (hs : ¬ strip raw = [])
    (hcond : st.cur.length + (strip raw).length > maxSize ∧ st.cur ≠ []) :
    splitStep parent maxSize st raw =
      { cur := strip raw, cnt := st.cnt + 1,
        acc := st.acc ++ [emitChunk parent st] } := by
  unfold splitStep
  simp only [if_neg hs, if_pos hcond]

theorem splitStep_merge_nil (parent : BuildChunk) (maxSize : Nat)
    (st : SplitState) (raw : Str) (hs : ¬ strip raw = [])
    (hcond : ¬ (st.cur.length + (strip raw).length > maxSize ∧
      st.cur ≠ [])) (hcur : st.cur = []) :
    splitStep parent maxSize st raw = { st with cur := strip raw } := by
  unfold splitStep
  simp only [if_neg hs, if_neg hcond, if_pos hcur]

theorem splitStep_merge (parent : BuildChunk) (maxSize : Nat)
    (st : SplitState) (raw : Str) (hs : ¬ strip raw = [])
    (hcond : ¬ (st.cur.length + (strip raw).length > maxSize ∧
      st.cur ≠ [])) (hcur : ¬ st.cur = []) :
    splitStep parent maxSize st raw =
      { st with cur := st.cur ++ '.' :: ' ' :: strip raw } := by
  unfold splitStep
  simp only [if_neg hs, if_neg hcond, if_neg hcur]

theorem foldl_splitStep_skip (parent : BuildChunk) (maxSize : Nat) :
    ∀ (sents : List Str), (∀ s ∈ sents, strip s = []) →
    ∀ st, sents.foldl (splitStep parent maxSize) st = st := by
  intro sents
  induction sents with
  | nil => intro _ st; rfl
  | cons a as ih =>
    intro h st
    rw [List.foldl_cons, splitStep_skip parent maxSize st
      (h a (List.mem_cons_self _ _))]
    exact ih (fun s hs => h s (List.mem_cons_of_mem a hs)) st

/-- **C10**: if a candidate chunk's content exceeds `maxChunkSize` but
contains no non-whitespace characters other than the sentence delimiters
`.`, `!`, `?`, then `_split_large_chunk` returns no sub-chunks, and the
splitting pass of `_create_chunks` drops the chunk from the output
entirely, so its content is never indexed. -/
theorem C10_oversized_punct_dropped (parent : BuildChunk) (maxSize : Nat)
    (hall : ∀ c ∈ parent.content, isWs c = true ∨ isDelim c = true)
    (hlen : parent.content.length > maxSize) :
    split_large_chunk parent maxSize = [] ∧
    ∀ acc, chunkSizeStep maxSize acc parent = acc := by
  have hsplit : split_large_chunk parent maxSize = [] := by
    unfold split_large_chunk
    rw [foldl_splitStep_skip parent maxSize _ ?_ ⟨[], 0, []⟩]
    · rfl
    · intro s hs
      apply strip_eq_nil_of_all_ws
      intro c hc
      have hprop := mem_splitDelimRuns hs c hc
      rcases hall c hprop.1 with hws | hdl
      · exact hws
      · rw [hprop.2] at hdl; cases hdl
  refine ⟨hsplit, fun acc => ?_⟩
  unfold chunkSizeStep
  rw [if_pos hlen, hsplit, List.append_nil]

/-- Witness for C10 at the concrete oversized punctuation-only content
`"..!? .."` with bound 5. -/
theorem C10_witness :
    (∀ c ∈ ("..!? ..".data : Str), isWs c = true ∨ isDelim c = true) ∧
    ("..!? ..".data : Str).length > 5 ∧
    (split_large_chunk
      ⟨"x".data, "..!? ..".data, "t", [], [], [], [], [], "t"⟩ 5 = [] ∧
     ∀ acc, chunkSizeStep 5 acc
      ⟨"x".data, "..!? ..".data, "t", [], [], [], [], [], "t"⟩ = acc) :=
  ⟨by decide, by decide,
    C10_oversized_punct_dropped
      ⟨"x".data, "..!? ..".data, "t", [], [], [], [], [], "t"⟩ 5
      (by decide) (by decide)⟩

/-! ## C8: which empty candidates are dropped -/

theorem splitStep_inv_nonempty (parent : BuildChunk) (maxSize : Nat)
    (st : SplitState) (raw : Str)
    (h1 : ∀ c ∈ st.acc, c.content ≠ [])
    (h2 : st.cur = [] ∨ ∃ ch ∈ st.cur, isWs ch = false) :
    (∀ c ∈ (splitStep parent maxSize st raw).acc, c.content ≠ []) ∧
    ((splitStep parent maxSize st raw).cur = [] ∨
      ∃ ch ∈ (splitStep parent maxSize st raw).cur, isWs ch = false) := by
  by_cases hs : strip raw = []
  · rw [splitStep_skip parent maxSize st hs]
    exact ⟨h1, h2⟩
  by_cases hcond : st.cur.length + (strip raw).length > maxSize ∧
      st.cur ≠ []
  · rw [splitStep_flush parent maxSize st raw hs hcond]
    constructor
    · intro c hc
      simp only [List.mem_append, List.mem_singleton] at hc
      rcases hc with hc | rfl
      · exact h1 c hc
      · show strip st.cur ≠ []
        rcases h2 with hnil | ⟨ch, hch, hw⟩
        · exact absurd hnil hcond.2
        · exact strip_ne_nil_of_mem hch hw
    · right
      exact strip_has_nonws hs
  by_cases hcur : st.cur = []
  · rw [splitStep_merge_nil parent maxSize st raw hs hcond hcur]
    refine ⟨h1, Or.inr ?_⟩
    exact strip_has_nonws hs
  · rw [splitStep_merge parent maxSize st raw hs hcond hcur]
    refine ⟨h1, Or.inr ?_⟩
    exact ⟨'.', by simp, by decide⟩

theorem foldl_splitStep_inv_nonempty (parent : BuildChunk) (maxSize : Nat) :
    ∀ (sents : List Str) (st : SplitState),
    (∀ c ∈ st.acc, c.content ≠ []) →
    (st.cur = [] ∨ ∃ ch ∈ st.cur, isWs ch = false) →
    (∀ c ∈ (sents.foldl (splitStep parent maxSize) st).acc,
      c.content ≠ []) ∧
    ((sents.foldl (splitStep parent maxSize) st).cur = [] ∨
      ∃ ch ∈ (sents.foldl (splitStep parent maxSize) st).cur,
        isWs ch = false) := by
  intro sents
  induction sents with
  | nil => intro st h1 h2; exact ⟨h1, h2⟩
  | cons a as ih =>
    intro st h1 h2
    rw [List.foldl_cons]
    obtain ⟨h1', h2'⟩ := splitStep_inv_nonempty parent maxSize st a h1 h2
    exact ih _ h1' h2'

/-- Every sub-chunk emitted by `_split_large_chunk` has nonempty content. -/
theorem split_large_chunk_content_ne_nil (parent : BuildChunk)
    (maxSize : Nat) :
    ∀ c ∈ split_large_chunk parent maxSize, c.content ≠ [] := by
  have key : ∀ (st : SplitState),
      st = (splitDelimRuns parent.content).foldl
        (splitStep parent maxSize) ⟨[], 0, []⟩ →
      ∀ c ∈ (if st.cur ≠ [] then st.acc ++ [emitChunk parent st]
             else st.acc), c.content ≠ [] := by
    intro st hst c hc
    obtain ⟨hacc, hcur⟩ := foldl_splitStep_inv_nonempty parent maxSize
      (splitDelimRuns parent.content) ⟨[], 0, []⟩
      (fun x hx => absurd hx (List.not_mem_nil x)) (Or.inl rfl)
    rw [← hst] at hacc hcur
    split_ifs at hc with hne
    · simp only [List.mem_append, List.mem_singleton] at hc
      rcases hc with hc | rfl
      · exact hacc c hc
      · show strip st.cur ≠ []
        rcases hcur with hnil | ⟨ch, hch, hw⟩
        · exact absurd hnil hne
        · exact strip_ne_nil_of_mem hch hw
    · exact hacc c hc
  intro c hc
  exact key _ rfl c hc

/-- Membership in the splitting pass of `_create_chunks` comes either from
splitting an oversized candidate or from an in-bound candidate itself. -/
theorem mem_foldl_chunkSizeStep {size : Nat} :
    ∀ {cands acc : List BuildChunk} {c : BuildChunk},
      c ∈ cands.foldl (chunkSizeStep size) acc →
      c ∈ acc ∨ ∃ x ∈ cands,
        (x.content.length > size ∧ c ∈ split_large_chunk x size) ∨
        (¬ x.content.length > size ∧ c = x) := by
  intro cands
  induction cands with
  | nil => intro acc c hc; exact Or.inl hc
  | cons a as ih =>
    intro acc c hc
    rw [List.foldl_cons] at hc
    rcases ih hc with hmem | ⟨x, hx, hprop⟩
    · unfold chunkSizeStep at hmem
      split_ifs at hmem with hlen
      · rcases List.mem_append.mp hmem with h | h
        · exact Or.inl h
        · exact Or.inr ⟨a, List.mem_cons_self _ _, Or.inl ⟨hlen, h⟩⟩
      · rcases List.mem_append.mp hmem with h | h
        · exact Or.inl h
        · exact Or.inr ⟨a, List.mem_cons_self _ _,
            Or.inr ⟨hlen, List.mem_singleton.mp h⟩⟩
    · exact Or.inr ⟨x, List.mem_cons_of_mem a hx, hprop⟩

theorem segChunks_mtype :
    ∀ (ss : List Segment) (n : Nat) (c : BuildChunk),
      c ∈ (segChunks ss n).1 → c.mtype = "transcript_segment" := by
  intro ss
  induction ss with
  | nil => intro n c hc; cases hc
  | cons s ss ih =>
    intro n c hc
    rcases List.mem_cons.mp hc with rfl | hmem
    · rfl
    · exact ih (n + 1) c hmem

theorem kpChunks_mtype (sec : NotesSection) :
    ∀ (ps : List Str) (n : Nat) (c : BuildChunk),
      c ∈ (kpChunks sec ps n).1 → c.mtype = "key_point" := by
  intro ps
  induction ps with
  | nil => intro n c hc; cases hc
  | cons p ps ih =>
    intro n c hc
    rcases List.mem_cons.mp hc with rfl | hmem
    · rfl
    · exact ih (n + 1) c hmem

theorem qtChunks_mtype (sec : NotesSection) :
    ∀ (qs : List Str) (n : Nat) (c : BuildChunk),
      c ∈ (qtChunks sec qs n).1 → c.mtype = "quote" := by
  intro qs
  induction qs with
  | nil => intro n c hc; cases hc
  | cons q qs ih =>
    intro n c hc
    rcases List.mem_cons.mp hc with rfl | hmem
    · rfl
    · exact ih (n + 1) c hmem

theorem sectionChunks_notes_nonempty (sec : NotesSection) (n : Nat)
    (c : BuildChunk) (hc : c ∈ (sectionChunks sec n).1)
    (hm : c.mtype = "notes_section") : c.content ≠ [] := by
  simp only [sectionChunks, List.mem_append] at hc
  rcases hc with (hc1 | hc2) | hc3
  · split_ifs at hc1 with hguard
    · have hceq : c = notesChunk n sec := by simpa using hc1
      subst hceq
      exact hguard
    · simp at hc1
  · split_ifs at hc2
    all_goals first
      | (simp at hc2; done)
      | (rw [kpChunks_mtype sec sec.key_points _ c hc2] at hm
         exact absurd hm (by decide))
  · split_ifs at hc3
    all_goals first
      | (simp at hc3; done)
      | (rw [qtChunks_mtype sec sec.quotes _ c hc3] at hm
         exact absurd hm (by decide))

theorem sectionsChunks_notes_nonempty :
    ∀ (secs : List NotesSection) (n : Nat) (c : BuildChunk),
      c ∈ (sectionsChunks secs n).1 → c.mtype = "notes_section" →
      c.content ≠ [] := by
  intro secs
  induction secs with
  | nil => intro n c hc; cases hc
  | cons sec secs ih =>
    intro n c hc hm
    unfold sectionsChunks at hc
    simp only [List.mem_append] at hc
    rcases hc with hc | hc
    · exact sectionChunks_notes_nonempty sec n c hc hm
    · exact ih _ c hc hm

theorem buildCandidates_notes_nonempty (transcript : Transcript)
    (notes : Notes) (c : BuildChunk)
    (hc : c ∈ buildCandidates transcript notes)
    (hm : c.mtype = "notes_section") : c.content ≠ [] := by
  unfold buildCandidates at hc
  simp only [List.mem_append] at hc
  rcases hc with hc | hc
  · rcases htr : transcript.segments with _ | segs <;> rw [htr] at hc
    · cases hc
    · have := segChunks_mtype segs 0 c hc
      rw [this] at hm
      exact absurd hm (by decide)
  · rcases hnt : notes.sections with _ | secs <;> rw [hnt] at hc
    · cases hc
    · exact sectionsChunks_notes_nonempty secs _ c hc hm

/-- **C8 (amended)**: only `notes_section` candidates are subject to the
empty-text guard; every chunk of type `notes_section` in the output of
chunk building has nonempty content.  (Transcript segments, key points and
quotes with empty text are retained, as C8's counterexample shows.) -/
theorem C8_notes_section_nonempty (transcript : Transcript) (notes : Notes)
    (size : Nat) (c : BuildChunk)
    (hc : c ∈ create_chunks transcript notes size)
    (hm : c.mtype = "notes_section") : c.content ≠ [] := by
  unfold create_chunks at hc
  rcases mem_foldl_chunkSizeStep hc with hnil | ⟨x, hx, hprop⟩
  · cases hnil
  · rcases hprop with ⟨_, hsplit⟩ | ⟨_, rfl⟩
    · exact split_large_chunk_content_ne_nil x size c hsplit
    · exact buildCandidates_notes_nonempty transcript notes c hx hm

/-- **C8 counterexample**: a transcript segment whose `text` is empty
produces an output chunk with empty content — empty-text candidates are
not dropped for transcript segments. -/
theorem C8_counterexample :
    ¬ (∀ c ∈ create_chunks { segments := some [{ text := [] }] } {} 1000,
        c.content ≠ []) := by decide

/-- Witness for C8 (amended) at a concrete notes section. -/
theorem C8_witness :
    ((⟨"notes_0".data, "hi".data, "notes", [], [], [], [], [],
        "notes_section"⟩ : BuildChunk)
      ∈ create_chunks {} { sections := some [{ content := "hi".data }] }
          1000) ∧
    (⟨"notes_0".data, "hi".data, "notes", [], [], [], [], [],
        "notes_section"⟩ : BuildChunk).content ≠ [] :=
  ⟨by decide,
   C8_notes_section_nonempty {} { sections := some [{ content := "hi".data }] }
     1000 _ (by decide) (by decide)⟩

/-! ## C1: the chunk-size invariant -/

/-- The sentences of a string under the code's own tokenization: split on
`[.!?]+`, strip, drop empties (this is exactly the sentence stream the
splitting loop consumes). -/
def sentencesOf (s : Str) : List Str :=
  ((splitDelimRuns s).map strip).filter (fun t => !t.isEmpty)

theorem emit_bound {maxSize : Nat} (parent : BuildChunk) (st : SplitState)
    (h : st.cur.length ≤ maxSize + 2 ∨ ∀ ch ∈ st.cur, isDelim ch = false) :
    (emitChunk parent st).content.length ≤ maxSize + 2 ∨
      (sentencesOf (emitChunk parent st).content).length ≤ 1 := by
  rcases h with hlen | hnd
  · left
    calc (strip st.cur).length ≤ st.cur.length := strip_length_le _
      _ ≤ maxSize + 2 := hlen
  · right
    have hnd' : ∀ ch ∈ strip st.cur, isDelim ch = false :=
      fun ch hch => hnd ch (mem_of_mem_strip hch)
    show (sentencesOf (strip st.cur)).length ≤ 1
    unfold sentencesOf
    rw [splitDelimRuns_of_noDelim hnd']
    have := List.length_filter_le (fun t => !t.isEmpty)
      ([strip st.cur].map strip)
    simpa using this

theorem splitStep_inv_bound (parent : BuildChunk) (maxSize : Nat)
    (st : SplitState) (raw : Str)
    (hraw : ∀ c ∈ raw, isDelim c = false)
    (h1 : ∀ c ∈ st.acc, c.content.length ≤ maxSize + 2 ∨
      (sentencesOf c.content).length ≤ 1)
    (h2 : st.cur = [] ∨ st.cur.length ≤ maxSize + 2 ∨
      ∀ ch ∈ st.cur, isDelim ch = false) :
    (∀ c ∈ (splitStep parent maxSize st raw).acc,
      c.content.length ≤ maxSize + 2 ∨
        (sentencesOf c.content).length ≤ 1) ∧
    ((splitStep parent maxSize st raw).cur = [] ∨
      (splitStep parent maxSize st raw).cur.length ≤ maxSize + 2 ∨
      ∀ ch ∈ (splitStep parent maxSize st raw).cur, isDelim ch = false) := by
  have hstripnd : ∀ ch ∈ strip raw, isDelim ch = false :=
    fun ch hch => hraw ch (mem_of_mem_strip hch)
  by_cases hs : strip raw = []
  · rw [splitStep_skip parent maxSize st hs]
    exact ⟨h1, h2⟩
  by_cases hcond : st.cur.length + (strip raw).length > maxSize ∧
      st.cur ≠ []
  · rw [splitStep_flush parent maxSize st raw hs hcond]
    constructor
    · intro c hc
      simp only [List.mem_append, List.mem_singleton] at hc
      rcases hc with hc | rfl
      · exact h1 c hc
      · apply emit_bound
        rcases h2 with hnil | h2'
        · exact absurd hnil hcond.2
        · exact h2'
    · exact Or.inr (Or.inr hstripnd)
  by_cases hcur : st.cur = []
  · rw [splitStep_merge_nil parent maxSize st raw hs hcond hcur]
    exact ⟨h1, Or.inr (Or.inr hstripnd)⟩
  · rw [splitStep_merge parent maxSize st raw hs hcond hcur]
    refine ⟨h1, Or.inr (Or.inl ?_)⟩
    have hle : st.cur.length + (strip raw).length ≤ maxSize := by
      rcases not_and_or.mp hcond with h | h
      · omega
      · exact absurd hcur h
    simp only [List.length_append, List.length_cons]
    omega

theorem foldl_splitStep_inv_bound (parent : BuildChunk) (maxSize : Nat) :
    ∀ (sents : List Str) (st : SplitState),
    (∀ s ∈ sents, ∀ c ∈ s, isDelim c = false) →
    (∀ c ∈ st.acc, c.content.length ≤ maxSize + 2 ∨
      (sentencesOf c.content).length ≤ 1) →
    (st.cur = [] ∨ st.cur.length ≤ maxSize + 2 ∨
      ∀ ch ∈ st.cur, isDelim ch = false) →
    (∀ c ∈ (sents.foldl (splitStep parent maxSize) st).acc,
      c.content.length ≤ maxSize + 2 ∨
        (sentencesOf c.content).length ≤ 1) ∧
    ((sents.foldl (splitStep parent maxSize) st).cur = [] ∨
      (sents.foldl (splitStep parent maxSize) st).cur.length ≤ maxSize + 2 ∨
      ∀ ch ∈ (sents.foldl (splitStep parent maxSize) st).cur,
        isDelim ch = false) := by
  intro sents
  induction sents with
  | nil => intro st _ h1 h2; exact ⟨h1, h2⟩
  | cons a as ih =>
    intro st hnd h1 h2
    rw [List.foldl_cons]
    obtain ⟨h1', h2'⟩ := splitStep_inv_bound parent maxSize st a
      (hnd a (List.mem_cons_self _ _)) h1 h2
    exact ih _ (fun s hs => hnd s (List.mem_cons_of_mem a hs)) h1' h2'

/-- Every sub-chunk emitted by `_split_large_chunk` either fits in
`maxSize + 2` characters (the 2-character slack comes from the `". "`
joiner, which the size check does not count) or is a single sentence. -/
theorem split_large_chunk_bound (parent : BuildChunk) (maxSize : Nat) :
    ∀ c ∈ split_large_chunk parent maxSize,
      c.content.length ≤ maxSize + 2 ∨
        (sentencesOf c.content).length ≤ 1 := by
  have key : ∀ (st : SplitState),
      st = (splitDelimRuns parent.content).foldl
        (splitStep parent maxSize) ⟨[], 0, []⟩ →
      ∀ c ∈ (if st.cur ≠ [] then st.acc ++ [emitChunk parent st]
             else st.acc),
        c.content.length ≤ maxSize + 2 ∨
          (sentencesOf c.content).length ≤ 1 := by
    intro st hst c hc
    obtain ⟨hacc, hcur⟩ := foldl_splitStep_inv_bound parent maxSize
      (splitDelimRuns parent.content) ⟨[], 0, []⟩
      (fun s hs c' hc' => (mem_splitDelimRuns hs c' hc').2)
      (fun x hx => absurd hx (List.not_mem_nil x)) (Or.inl rfl)
    rw [← hst] at hacc hcur
    split_ifs at hc with hne
    · simp only [List.mem_append, List.mem_singleton] at hc
      rcases hc with hc | rfl
      · exact hacc c hc
      · apply emit_bound
        rcases hcur with hnil | h
        · exact absurd hnil hne
        · exact h
    · exact hacc c hc
  intro c hc
  exact key _ rfl c hc

/-- **C1 (amended)**: every chunk in the output of chunk building
satisfies `len(content) ≤ maxChunkSize + 2` — not `maxChunkSize` as
claimed, because the `". "` joiner added between accumulated sentences is
not counted by the size check — unless the chunk's content is a single
sentence, which is emitted whole (never split mid-word). -/
theorem C1_chunk_size_bound (transcript : Transcript) (notes : Notes)
    (size : Nat) (c : BuildChunk)
    (hc : c ∈ create_chunks transcript notes size) :
    c.content.length ≤ size + 2 ∨ (sentencesOf c.content).length ≤ 1 := by
  unfold create_chunks at hc
  rcases mem_foldl_chunkSizeStep hc with h | ⟨x, _, hprop⟩
  · cases h
  · rcases hprop with ⟨_, hsplit⟩ | ⟨hlen, rfl⟩
    · exact split_large_chunk_bound x size c hsplit
    · left; omega

/-- **C1 counterexample**: with `maxChunkSize = 5` and the transcript
segment `"aa.bbb"`, chunk building outputs the two-sentence chunk
`"aa. bbb"` of length 7 > 5: the bound `len(content) ≤ maxChunkSize` fails
on a chunk that is not a single oversized sentence. -/
theorem C1_counterexample :
    ¬ (∀ c ∈ create_chunks
        { segments := some [{ text := "aa.bbb".data }] } {} 5,
        c.content.length ≤ 5 ∨ (sentencesOf c.content).length ≤ 1) := by
  decide

/-- Witness for C1 (amended) at the same concrete input. -/
theorem C1_witness :
    ((⟨"transcript_0_0".data, "aa. bbb".data, "transcript", [], [], [],
        [], [], "transcript_segment"⟩ : BuildChunk)
      ∈ create_chunks { segments := some [{ text := "aa.bbb".data }] } {} 5)
    ∧ ((⟨"transcript_0_0".data, "aa. bbb".data, "transcript", [], [], [],
        [], [], "transcript_segment"⟩ : BuildChunk).content.length ≤ 5 + 2 ∨
       (sentencesOf (⟨"transcript_0_0".data, "aa. bbb".data, "transcript",
        [], [], [], [], [], "transcript_segment"⟩ : BuildChunk).content).length
         ≤ 1) :=
  ⟨by decide,
   C1_chunk_size_bound { segments := some [{ text := "aa.bbb".data }] } {}
     5 _ (by decide)⟩

/-! ## C6: reconstruction of split content -/

/-- Characters preserved verbatim by chunk splitting: everything that is
neither whitespace nor a sentence delimiter. -/
def keepChar (c : Char) : Bool := !(isWs c) && !(isDelim c)

/-- Erase whitespace and sentence delimiters. -/
def clean (l : Str) : Str := l.filter keepChar

theorem clean_append (l₁ l₂ : Str) :
    clean (l₁ ++ l₂) = clean l₁ ++ clean l₂ :=
  List.filter_append l₁ l₂

theorem clean_dropWhile_ws (l : Str) :
    clean (l.dropWhile isWs) = clean l := by
  conv_rhs =>
    rw [show l = l.takeWhile isWs ++ l.dropWhile isWs from
      (List.takeWhile_append_dropWhile isWs l).symm]
  rw [clean_append]
  have htake : clean (l.takeWhile isWs) = [] := by
    rw [clean, List.filter_eq_nil_iff]
    intro x hx
    have := List.mem_takeWhile_imp hx
    simp [keepChar, this]
  rw [htake, List.nil_append]

theorem clean_reverse (l : Str) : clean l.reverse = (clean l).reverse :=
  List.filter_reverse keepChar l

theorem clean_strip (l : Str) : clean (strip l) = clean l := by
  unfold strip
  rw [clean_reverse, clean_dropWhile_ws, clean_reverse,
    List.reverse_reverse, clean_dropWhile_ws]

theorem clean_filter_delim (l : Str) :
    clean (l.filter (fun c => !(isDelim c))) = clean l := by
  unfold clean
  rw [List.filter_filter]
  congr 1
  funext c
  cases h1 : isWs c <;> cases h2 : isDelim c <;> simp [keepChar, h1, h2]

theorem splitStep_clean (parent : BuildChunk) (maxSize : Nat)
    (st : SplitState) (raw : Str) :
    clean (((splitStep parent maxSize st raw).acc.map
        BuildChunk.content).flatten) ++
      clean (splitStep parent maxSize st raw).cur =
    (clean ((st.acc.map BuildChunk.content).flatten) ++ clean st.cur) ++
      clean raw := by
  by_cases hs : strip raw = []
  · rw [splitStep_skip parent maxSize st hs]
    have hraw : clean raw = [] := by
      rw [← clean_strip raw, hs]
      rfl
    rw [hraw, List.append_nil]
  by_cases hcond : st.cur.length + (strip raw).length > maxSize ∧
      st.cur ≠ []
  · rw [splitStep_flush parent maxSize st raw hs hcond]
    simp only [List.map_append, List.map_cons, List.map_nil,
      List.flatten_append, List.flatten_cons, List.flatten_nil,
      List.append_nil, emitChunk]
    rw [clean_append, clean_strip, clean_strip]
  by_cases hcur : st.cur = []
  · rw [splitStep_merge_nil parent maxSize st raw hs hcond hcur]
    simp only [clean_strip, hcur]
    simp [clean]
  · rw [splitStep_merge parent maxSize st raw hs hcond hcur]
    simp only []
    rw [show st.cur ++ '.' :: ' ' :: strip raw =
      st.cur ++ ('.' :: ' ' :: []) ++ strip raw from by simp]
    rw [clean_append, clean_append, clean_strip]
    have hpd : clean ('.' :: ' ' :: []) = [] := by decide
    rw [hpd, List.append_nil]
    simp [List.append_assoc]

theorem foldl_splitStep_clean (parent : BuildChunk) (maxSize : Nat) :
    ∀ (sents : List Str) (st : SplitState),
    clean (((sents.foldl (splitStep parent maxSize) st).acc.map
        BuildChunk.content).flatten) ++
      clean (sents.foldl (splitStep parent maxSize) st).cur =
    (clean ((st.acc.map BuildChunk.content).flatten) ++ clean st.cur) ++
      (sents.map clean).flatten := by
  intro sents
  induction sents with
  | nil => intro st; simp
  | cons a as ih =>
    intro st
    rw [List.foldl_cons, ih (splitStep parent maxSize st a),
      splitStep_clean]
    simp [List.append_assoc]

/-- **C6 (amended)**: concatenating the contents of the sub-chunks
produced by `_split_large_chunk`, in order, reconstructs the original
content modulo whitespace *and the sentence delimiters* `.`, `!`, `?`:
the split discards the delimiters (rejoining accumulated sentences with
`". "`), so reconstruction up to whitespace alone fails, but no other
character is lost or altered. -/
theorem C6_split_reconstruction (parent : BuildChunk) (maxSize : Nat) :
    clean (((split_large_chunk parent maxSize).map
        BuildChunk.content).flatten) = clean parent.content := by
  have key : ∀ (st : SplitState),
      st = (splitDelimRuns parent.content).foldl
        (splitStep parent maxSize) ⟨[], 0, []⟩ →
      clean (((if st.cur ≠ [] then st.acc ++ [emitChunk parent st]
               else st.acc).map BuildChunk.content).flatten) =
        clean parent.content := by
    intro st hst
    have hfold := foldl_splitStep_clean parent maxSize
      (splitDelimRuns parent.content) ⟨[], 0, []⟩
    rw [← hst] at hfold
    have hinit : (clean ((([] : List BuildChunk).map
        BuildChunk.content).flatten) ++ clean ([] : Str)) = [] := by rfl
    rw [hinit, List.nil_append] at hfold
    have hr : ((splitDelimRuns parent.content).map clean).flatten =
        clean parent.content := by
      unfold clean
      rw [← List.filter_flatten, flatten_splitDelimRuns]
      exact clean_filter_delim parent.content
    rw [hr] at hfold
    split_ifs with hne
    · simp only [List.map_append, List.map_cons, List.map_nil,
        List.flatten_append, List.flatten_cons, List.flatten_nil,
        List.append_nil, emitChunk]
      rw [clean_append, clean_strip]
      exact hfold
    · push_neg at hne
      rw [hne] at hfold
      rw [show clean ([] : Str) = [] from rfl, List.append_nil] at hfold
      exact hfold
  exact key _ rfl

/-- **C6 counterexample**: splitting the chunk `"aaa!bbb"` with bound 5
yields sub-chunks `"aaa"` and `"bbb"`; their concatenation differs from
the original even modulo whitespace — the `!` has been discarded. -/
theorem C6_counterexample :
    ¬ ((((split_large_chunk
          ⟨"x".data, "aaa!bbb".data, "t", [], [], [], [], [], "t"⟩ 5).map
          BuildChunk.content).flatten.filter (fun c => !(isWs c))) =
        (("aaa!bbb".data : Str).filter (fun c => !(isWs c)))) := by
  decide

/-! ## C2 and C7: reranking -/

/-- **C2**: for every question and candidate list, reranking assigns each
candidate `finalScore = (similarity*0.7 + keywordOverlap*0.3) *
sourceTypeBoost`, where `keywordOverlap` is the number of distinct
case-insensitive query word tokens also occurring among the chunk's
distinct word tokens, divided by the number of distinct query tokens
(0 when the query has no tokens), and the boost is 1.2 for `key_point`,
1.1 for `quote` and 1.0 otherwise; the output is a permutation of the
rescored candidates. -/
theorem C2_rerank_scores (question : Str) (chunks : List RetrievedChunk) :
    (rerank_chunks question chunks).Perm
      (chunks.map (fun c =>
        { c with relevance_score :=
            (c.relevance_score * (7 / 10) +
              (if (wordTokens question).dedup = [] then 0
               else (((wordTokens question).dedup.filter
                  (fun t => decide
                    (t ∈ (wordTokens c.content).dedup))).length : ℚ) /
                 (((wordTokens question).dedup.length : ℚ))) * (3 / 10)) *
            (if c.mtype = "key_point" then 6 / 5
             else if c.mtype = "quote" then 11 / 10 else 1) })) := by
  unfold rerank_chunks
  exact List.perm_insertionSort rankLE _

theorem filter_score_orderedInsert (a : RetrievedChunk)
    (l : List RetrievedChunk) (q : ℚ) :
    (List.orderedInsert rankLE a l).filter
        (fun x => decide (x.relevance_score = q)) =
      if a.relevance_score = q then
        a :: l.filter (fun x => decide (x.relevance_score = q))
      else l.filter (fun x => decide (x.relevance_score = q)) := by
  induction l with
  | nil =>
    by_cases hq : a.relevance_score = q <;>
      simp [List.orderedInsert, List.filter, hq]
  | cons b l ih =>
    rw [List.orderedInsert]
    by_cases hr : rankLE a b
    · rw [if_pos hr]
      by_cases hq : a.relevance_score = q <;>
        simp [List.filter_cons, hq]
    · rw [if_neg hr]
      by_cases hq : a.relevance_score = q
      · have hb : ¬ (b.relevance_score = q) := by
          intro hbq
          exact hr (by simp [rankLE, hbq, hq])
        rw [if_pos hq]
        simp only [List.filter_cons, hb, decide_eq_true_eq, if_false]
        rw [ih, if_pos hq]
      · rw [if_neg hq]
        simp only [List.filter_cons]
        rw [ih, if_neg hq]

theorem filter_score_insertionSort (l : List RetrievedChunk) (q : ℚ) :
    (List.insertionSort rankLE l).filter
        (fun x => decide (x.relevance_score = q)) =
      l.filter (fun x => decide (x.relevance_score = q)) := by
  induction l with
  | nil => rfl
  | cons a l ih =>
    rw [List.insertionSort, filter_score_orderedInsert]
    by_cases hq : a.relevance_score = q
    · rw [if_pos hq, ih]
      simp [List.filter_cons, hq]
    · rw [if_neg hq, ih]
      simp [List.filter_cons, hq]

/-- **C7**: reranking sorts the rescored candidates in descending
`finalScore` order; equal-score candidates keep their original order (the
sort is stable: for every score value, filtering the output to that score
gives exactly the rescored input subsequence); retrieval truncates the
reranked list to `k`.  Reranking is a pure function of the question and
the chunk list, hence deterministic across repeated runs. -/
theorem C7_rerank_stable_sort (question : Str)
    (chunks : List RetrievedChunk) (k : Nat) (rows : List QueryRow) :
    List.Sorted rankLE (rerank_chunks question chunks) ∧
    (∀ q : ℚ, (rerank_chunks question chunks).filter
        (fun x => decide (x.relevance_score = q)) =
      (chunks.map (rescore question)).filter
        (fun x => decide (x.relevance_score = q))) ∧
    retrieve_relevant_chunks question k (Except.ok rows) =
      (rerank_chunks question (rows.map rowToChunk)).take k := by
  refine ⟨?_, ?_, rfl⟩
  · exact List.sorted_insertionSort rankLE _
  · intro q
    exact filter_score_insertionSort _ q

/-! ## C3: confidence bounds -/

/-- **C3 (amended)**: the confidence is always `≤ 1.0` and equals exactly
`0.0` when the cited-chunk list is empty; but the code clamps only the
upper bound (`min(confidence, 1.0)`), so `0.0 ≤ confidence` holds only
when every cited chunk's relevance score is nonnegative — a negative
average relevance (possible since `similarity = 1 - distance` can be
negative) produces a negative confidence, as C3's counterexample shows. -/
theorem C3_confidence_bounds (chunks : List RetrievedChunk)
    (answer : Str) :
    calculate_confidence chunks answer ≤ 1 ∧
    (chunks = [] → calculate_confidence chunks answer = 0) ∧
    ((∀ c ∈ chunks, 0 ≤ c.relevance_score) →
      0 ≤ calculate_confidence chunks answer) := by
  refine ⟨?_, ?_, ?_⟩
  · unfold calculate_confidence
    split_ifs with h
    · norm_num
    · exact min_le_right _ _
  · intro h
    unfold calculate_confidence
    rw [if_pos h]
  · intro hpos
    unfold calculate_confidence
    split_ifs with h
    · exact le_refl 0
    · apply le_min _ zero_le_one
      have havg : (0 : ℚ) ≤
          (chunks.map RetrievedChunk.relevance_score).sum /
            (chunks.length : ℚ) := by
        apply div_nonneg
        · apply List.sum_nonneg
          intro x hx
          obtain ⟨c, hc, rfl⟩ := List.mem_map.mp hx
          exact hpos c hc
        · positivity
      have hlen : (0 : ℚ) ≤ min ((pyWordCount answer : ℚ) / 100) 1 :=
        le_min (by positivity) zero_le_one
      have hdiv : (0 : ℚ) ≤
          ((chunks.map RetrievedChunk.mtype).dedup.length : ℚ) / 4 := by
        positivity
      exact add_nonneg
        (add_nonneg (mul_nonneg havg (by norm_num))
          (mul_nonneg hlen (by norm_num)))
        (mul_nonneg hdiv (by norm_num))

/-- **C3 counterexample**: a cited chunk carrying relevance score `-10`
(reachable, since the stored relevance is `1 - distance` and distances
can exceed 1) gives a negative confidence: the code has no lower clamp. -/
theorem C3_counterexample :
    calculate_confidence [⟨[], "x", none, none, 0, -10⟩] [] < 0 := by
  unfold calculate_confidence
  rw [if_neg (by simp)]
  apply min_lt_iff.mpr
  left
  norm_num [pyWordCount, runsOf, min_def]

/-- Witness for C3 (amended) at concrete inputs. -/
theorem C3_witness :
    calculate_confidence [] [] = 0 ∧
    calculate_confidence [⟨[], "x", none, none, 0, 1⟩] ['a'] ≤ 1 ∧
    (0 : ℚ) ≤ calculate_confidence [⟨[], "x", none, none, 0, 1⟩] ['a'] :=
  ⟨(C3_confidence_bounds [] []).2.1 rfl,
   (C3_confidence_bounds [⟨[], "x", none, none, 0, 1⟩] ['a']).1,
   (C3_confidence_bounds [⟨[], "x", none, none, 0, 1⟩] ['a']).2.2
     (by intro c hc
         rcases List.mem_singleton.mp hc with rfl
         norm_num)⟩

/-! ## C4: a failed collection query is swallowed, not fatal -/

/-- **C4 (amended)**: a query against a nonexistent or deleted collection
does *not* fail: `_retrieve_relevant_chunks` catches every exception
(including `NotFoundError`) and returns the empty chunk list, and
`answer_question` then produces an ordinary answer — indistinguishable
from a successful query that found no chunks — with empty sources and
confidence `0.0`.  (The code never recreates the missing collection, but
neither does it surface the failure.) -/
theorem C4_missing_collection_swallowed (question : Str) (k : Nat)
    (e : String) (synthesize : Str → List RetrievedChunk → Str)
    (followUps : Str → Str → List RetrievedChunk → List Str) :
    retrieve_relevant_chunks question k (Except.error e) = [] ∧
    answer_question synthesize followUps question k (Except.error e) =
      answer_question synthesize followUps question k (Except.ok []) ∧
    (answer_question synthesize followUps question k
        (Except.error e)).sources = [] ∧
    (answer_question synthesize followUps question k
        (Except.error e)).confidence = 0 := by
  refine ⟨rfl, ?_, rfl, rfl⟩
  simp [answer_question, retrieve_relevant_chunks, rerank_chunks,
    List.take_nil]

/-- **C4 counterexample**: with the collection query raising
`NotFoundError`, `answer_question` still returns an ordinary result
(the synthesized answer text, empty sources, confidence `0.0`) instead of
failing. -/
theorem C4_counterexample :
    answer_question (fun _ _ => "It is discussed.".data) (fun _ _ _ => [])
        "what".data 3 (Except.error "NotFoundError") =
      { answer := "It is discussed.".data
        sources := []
        follow_up_questions := []
        confidence := 0 } := rfl

/-! ## C5: embedding failure degrades to zero vectors, unreported -/

theorem zipWith_mk_zero (l : List BuildChunk) :
    List.zipWith (fun ch e => StoredEntry.mk ch.id ch.content ch.mtype e) l
      ((l.map (·.content)).map (fun _ => List.replicate 384 (0 : ℚ))) =
    l.map (fun c => StoredEntry.mk c.id c.content c.mtype
      (List.replicate 384 (0 : ℚ))) := by
  induction l with
  | nil => rfl
  | cons a l ih => simp only [List.map_cons, List.zipWith_cons_cons, ih]

theorem store_chunks_zero_aux (P : Provider)
    (hP : ∀ texts, generate_embeddings P texts =
      texts.map (fun _ => List.replicate 384 (0 : ℚ))) :
    ∀ (n : Nat) (chunks : List BuildChunk), chunks.length ≤ n →
    ∀ (col : List StoredEntry),
      store_chunks P chunks col = col ++ chunks.map (fun c =>
        StoredEntry.mk c.id c.content c.mtype
          (List.replicate 384 (0 : ℚ))) := by
  intro n
  induction n with
  | zero =>
    intro chunks hlen col
    obtain rfl : chunks = [] :=
      List.eq_nil_of_length_eq_zero (Nat.le_zero.mp hlen)
    rw [store_chunks]
    simp only [List.map_nil, List.append_nil]
  | succ n ih =>
    intro chunks hlen col
    rcases chunks with _ | ⟨c, cs⟩
    · rw [store_chunks]
      simp only [List.map_nil, List.append_nil]
    · rw [store_chunks, hP, zipWith_mk_zero,
        ih ((c :: cs).drop 100)
          (by simp only [List.length_drop, List.length_cons] at hlen ⊢
              omega)]
      rw [List.append_assoc, ← List.map_append, List.take_append_drop]

theorem store_chunks_error (e : String) (chunks : List BuildChunk)
    (col : List StoredEntry) :
    store_chunks (fun _ => Except.error e) chunks col =
      col ++ chunks.map (fun c =>
        StoredEntry.mk c.id c.content c.mtype
          (List.replicate 384 (0 : ℚ))) :=
  store_chunks_zero_aux (fun _ => Except.error e) (fun _ => rfl)
    chunks.length chunks (le_refl _) col

theorem store_chunks_zero_ok (chunks : List BuildChunk)
    (col : List StoredEntry) :
    store_chunks
        (fun ts => Except.ok (ts.map (fun _ => List.replicate 384 (0 : ℚ))))
        chunks col =
      col ++ chunks.map (fun c =>
        StoredEntry.mk c.id c.content c.mtype
          (List.replicate 384 (0 : ℚ))) :=
  store_chunks_zero_aux
    (fun ts => Except.ok (ts.map (fun _ => List.replicate 384 (0 : ℚ))))
    (fun _ => rfl) chunks.length chunks (le_refl _) col

/-- **C5 (amended)**: if the embedding provider fails, every chunk of the
batch is stored with a 384-dimensional zero vector, the stored count still
increases by the batch size, and no failure propagates out of the batch
store call — but the degraded condition is *not* reported to the caller:
the value returned by `setup_vector_store` (collection contents and stats
dict) is identical to that of a run whose provider succeeded, so the
caller cannot observe the failure (it is only printed to the console). -/
theorem C5_zero_vector_degradation (e : String) (chunks : List BuildChunk)
    (col : List StoredEntry) (name : String) (transcript : Transcript)
    (notes : Notes) (sz : Nat) :
    store_chunks (fun _ => Except.error e) chunks col =
      col ++ chunks.map (fun c =>
        StoredEntry.mk c.id c.content c.mtype
          (List.replicate 384 (0 : ℚ))) ∧
    (store_chunks (fun _ => Except.error e) chunks col).length =
      col.length + chunks.length ∧
    setup_vector_store (fun _ => Except.error e) name transcript notes sz =
      setup_vector_store
        (fun ts => Except.ok (ts.map (fun _ => List.replicate 384 (0 : ℚ))))
        name transcript notes sz := by
  refine ⟨store_chunks_error e chunks col, ?_, ?_⟩
  · rw [store_chunks_error e chunks col]
    simp only [List.length_append, List.length_map]
  · simp only [setup_vector_store]
    rw [store_chunks_error, store_chunks_zero_ok]

/-- **C5 counterexample** (to the "reported to the caller" conjunct): at a
concrete input, the entire caller-visible outcome of indexing with a
failing provider equals that of indexing with a succeeding provider — the
degraded condition is not reported through any return value. -/
theorem C5_counterexample :
    setup_vector_store (fun _ => Except.error "provider down") "col"
        { segments := some [{ text := "abc".data }] } {} 1000 =
      setup_vector_store
        (fun ts => Except.ok (ts.map (fun _ => List.replicate 384 (0 : ℚ))))
        "col" { segments := some [{ text := "abc".data }] } {} 1000 := by
  simp only [setup_vector_store]
  rw [store_chunks_error, store_chunks_zero_ok]

end VideoAnalyzer
